import Mathlib

/-!
Verification development for the ArXiv paper indexing layer
(`problem2/load_data.py`, `problem2/query_papers.py`, `problem2/api_server.py`).

Strings are modelled as lists of Unicode code points (`Str := List Nat`);
all input data in scope is ASCII, where code-point order coincides with the
byte order the key-value store uses for sort keys.  Each definition below is a
shallow embedding of the correspondingly named Python function.
-/

namespace ArxivIndex

set_option maxRecDepth 40000

/-- Code-point string: the model of a Python `str` (ASCII in all data here). -/
abbrev Str := List Nat

/-- Embed a Lean string literal as a code-point list. -/
def str (s : String) : Str := s.data.map Char.toNat

/-- Lexicographic (code-point) order on strings: the sort-key order of the
store (`≤`). -/
def lexLe : Str → Str → Bool
  | [], _ => true
  | _ :: _, [] => false
  | a :: as, b :: bs =>
    if a < b then true
    else if b < a then false
    else lexLe as bs

/-- ASCII uppercase letter test, on code points. -/
def isUpperN (n : Nat) : Bool := decide (65 ≤ n ∧ n ≤ 90)

/-- `[A-Za-z]`: the character class that may start a token in `tokenize`. -/
def isAlphaN (n : Nat) : Bool := isUpperN n || decide (97 ≤ n ∧ n ≤ 122)

/-- `[A-Za-z0-9-]`: the character class of token continuation characters. -/
def isTokN (n : Nat) : Bool := isAlphaN n || decide (48 ≤ n ∧ n ≤ 57) || decide (n = 45)

/-- ASCII case folding of one code point (models `str.lower()` on the ASCII
tokens produced by the tokenizer). -/
def lowerChar (n : Nat) : Nat := if isUpperN n then n + 32 else n

/-- Case folding of a whole string (models `keyword.lower()`). -/
def lowerStr (s : Str) : Str := s.map lowerChar

/-- Fuelled scanner for `tokenize`: finds maximal runs matching
`[A-Za-z][A-Za-z0-9-]*` and lowercases them, as `re.findall` plus
`w.lower()` do in `load_data.py` lines 83–85.  The fuel is the length of the
remaining input, so `tokenizeF s.length s` is total recursion on fuel. -/
def tokenizeF : Nat → Str → List Str
  | 0, _ => []
  | _ + 1, [] => []
  | fuel + 1, c :: rest =>
    if isAlphaN c then
      ((c :: rest.takeWhile isTokN).map lowerChar) :: tokenizeF fuel (rest.dropWhile isTokN)
    else
      tokenizeF fuel rest

/-- `tokenize(text)` from `load_data.py`. -/
def tokenize (s : Str) : List Str := tokenizeF s.length s

/-- The fixed stopword set of `load_data.py` lines 8–14. -/
def STOPWORDS : List Str :=
  [str "the", str "a", str "an", str "and", str "or", str "but", str "in", str "on",
   str "at", str "to", str "for", str "of", str "with", str "by", str "from", str "up",
   str "about", str "into", str "through", str "during", str "is", str "are", str "was",
   str "were", str "be", str "been", str "being", str "have", str "has",
   str "had", str "do", str "does", str "did", str "will", str "would", str "could",
   str "should", str "may", str "might", str "can", str "this", str "that",
   str "these", str "those", str "we", str "our", str "use", str "using", str "based",
   str "approach", str "method", str "paper", str "propose",
   str "proposed", str "show"]

/-- The token list surviving the stopword and minimum-length-3 filters
(`extract_keywords` line 89). -/
def filteredTokens (a : Str) : List Str :=
  (tokenize a).filter (fun t => !(STOPWORDS.contains t) && decide (3 ≤ t.length))

/-- First-occurrence index of a word in a token list (0-based; length of the
list when absent). -/
def idxOf (w : Str) : List Str → Nat
  | [] => 0
  | x :: t => if w = x then 0 else idxOf w t + 1

/-- Deduplication keeping first occurrences, with an accumulator of already
seen words: models the insertion order of the keys of a Python
`collections.Counter` (a dict, keyed in first-insertion order). -/
def dedupAcc (seen : List Str) : List Str → List Str
  | [] => []
  | x :: t => if seen.contains x then dedupAcc seen t else x :: dedupAcc (x :: seen) t

/-- Distinct surviving tokens in order of first occurrence. -/
def dedupF (l : List Str) : List Str := dedupAcc [] l

/-- The `(word, count)` items of `Counter(filtered)`, in first-insertion
order. -/
def counterItems (l : List Str) : List (Str × Nat) :=
  (dedupF l).map (fun w => (w, l.count w))

/-- Insert one `(word, count)` pair into a count-descending list, after every
entry of count ≥ its own: the stable placement `heapq.nlargest` guarantees. -/
def insertDesc (x : Str × Nat) : List (Str × Nat) → List (Str × Nat)
  | [] => [x]
  | y :: ys => if y.2 < x.2 then x :: y :: ys else y :: insertDesc x ys

/-- Stable sort by descending count (insertion order preserved on ties):
the ordering contract of `Counter.most_common`. -/
def sortDesc (l : List (Str × Nat)) : List (Str × Nat) :=
  l.foldl (fun acc x => insertDesc x acc) []

/-- `Counter(filtered).most_common(topk)`, keys only. -/
def most_common (l : List Str) (topk : Nat) : List Str :=
  ((sortDesc (counterItems l)).take topk).map Prod.fst

/-- `extract_keywords(abstract, topk)` from `load_data.py` lines 87–91. -/
def extract_keywords (a : Str) (topk : Nat) : List Str :=
  most_common (filteredTokens a) topk

/-! ### Date normalization (`iso_to_date`, lines 93–100)

`iso_to_date` replaces every `"Z"` by `"+00:00"`, hands the result to
`datetime.fromisoformat`, and formats the parsed value as `YYYY-MM-DD`;
a `ValueError` falls back to the first 10 characters of the raw string.
`parseIso` below models the documented `fromisoformat` grammar
`YYYY-MM-DD[*HH[:MM[:SS[.fff[fff]]]][+HH:MM[:SS[.ffffff]]]]` (the separator
`*` is any single character), with the constructor range checks: year ≥ 1,
1 ≤ month ≤ 12, 1 ≤ day ≤ days in month, hour < 24, minute < 60,
second < 60, and a UTC offset strictly smaller than 24 hours. -/

/-- ASCII digit test on code points. -/
def isDigitN (n : Nat) : Bool := decide (48 ≤ n ∧ n ≤ 57)

/-- Read exactly two digits, returning their value and the rest. -/
def digits2 : Str → Option (Nat × Str)
  | a :: b :: rest =>
    if isDigitN a && isDigitN b then some ((a - 48) * 10 + (b - 48), rest) else none
  | _ => none

/-- Read exactly four digits, returning their value and the rest. -/
def digits4 : Str → Option (Nat × Str)
  | a :: b :: c :: d :: rest =>
    if isDigitN a && isDigitN b && isDigitN c && isDigitN d then
      some ((a - 48) * 1000 + (b - 48) * 100 + (c - 48) * 10 + (d - 48), rest)
    else none
  | _ => none

/-- Consume one expected code point. -/
def expectC (ch : Nat) : Str → Option Str
  | c :: rest => if c = ch then some rest else none
  | [] => none

/-- Consume exactly `k` digits. -/
def takeDigits : Nat → Str → Option Str
  | 0, s => some s
  | k + 1, c :: rest => if isDigitN c then takeDigits k rest else none
  | _ + 1, [] => none

/-- Gregorian leap-year rule. -/
def isLeap (y : Nat) : Bool := decide ((y % 4 = 0 ∧ y % 100 ≠ 0) ∨ y % 400 = 0)

/-- Days in a month (for the date validity check of the `datetime`
constructor). -/
def daysInMonth (y m : Nat) : Nat :=
  if m = 2 then (if isLeap y then 29 else 28)
  else if m = 4 ∨ m = 6 ∨ m = 9 ∨ m = 11 then 30 else 31

/-- Optional fraction `.fff` or `.ffffff` after the seconds. -/
def parseFracOpt (s : Str) : Option Str :=
  match s with
  | 46 :: rest =>
    match takeDigits 6 rest with
    | some r => some r
    | none => takeDigits 3 rest
  | _ => some s

/-- UTC-offset tail after the sign: `HH:MM[:SS[.ffffff]]`, total strictly
below 24 hours. -/
def parseOffTail (r : Str) : Bool :=
  match digits2 r with
  | none => false
  | some (oh, r1) =>
    match expectC 58 r1 with
    | none => false
    | some r2 =>
      match digits2 r2 with
      | none => false
      | some (om, r3) =>
        match r3 with
        | [] => decide (oh * 3600 + om * 60 < 86400)
        | 58 :: r4 =>
          match digits2 r4 with
          | none => false
          | some (os, r5) =>
            match r5 with
            | [] => decide (oh * 3600 + om * 60 + os < 86400)
            | 46 :: r6 =>
              match takeDigits 6 r6 with
              | some [] => decide (oh * 3600 + om * 60 + os < 86400)
              | _ => false
            | _ => false
        | _ => false

/-- Time-of-day part (after the separator): `HH[:MM[:SS[.fff[fff]]]]` with an
optional offset; must consume the whole remainder. -/
def parseIsoTime (s : Str) : Bool :=
  match digits2 s with
  | none => false
  | some (hh, r1) =>
    if 24 ≤ hh then false else
    match r1 with
    | [] => true
    | 43 :: r => parseOffTail r
    | 45 :: r => parseOffTail r
    | 58 :: r2 =>
      match digits2 r2 with
      | none => false
      | some (mm, r3) =>
        if 60 ≤ mm then false else
        match r3 with
        | [] => true
        | 43 :: r => parseOffTail r
        | 45 :: r => parseOffTail r
        | 58 :: r4 =>
          match digits2 r4 with
          | none => false
          | some (ss, r5) =>
            if 60 ≤ ss then false else
            match parseFracOpt r5 with
            | none => false
            | some r6 =>
              match r6 with
              | [] => true
              | 43 :: r => parseOffTail r
              | 45 :: r => parseOffTail r
              | _ => false
        | _ => false
    | _ => false

/-- `datetime.fromisoformat`, reduced to the calendar date it parses
(`None` models `ValueError`). -/
def parseIso (s : Str) : Option (Nat × Nat × Nat) :=
  match digits4 s with
  | none => none
  | some (y, r1) =>
  match expectC 45 r1 with
  | none => none
  | some r2 =>
  match digits2 r2 with
  | none => none
  | some (m, r3) =>
  match expectC 45 r3 with
  | none => none
  | some r4 =>
  match digits2 r4 with
  | none => none
  | some (d, r5) =>
  if y = 0 ∨ m = 0 ∨ 12 < m ∨ d = 0 ∨ daysInMonth y m < d then none
  else
    match r5 with
    | [] => some (y, m, d)
    | _ :: t => if parseIsoTime t then some (y, m, d) else none

/-- Zero-padded 2-digit decimal rendering. -/
def pad2 (n : Nat) : Str := [48 + n / 10 % 10, 48 + n % 10]

/-- Zero-padded 4-digit decimal rendering. -/
def pad4 (n : Nat) : Str := [48 + n / 1000 % 10, 48 + n / 100 % 10, 48 + n / 10 % 10, 48 + n % 10]

/-- `dt.strftime("%Y-%m-%d")` for an in-range date. -/
def fmtYMD (y m d : Nat) : Str := pad4 y ++ [45] ++ pad2 m ++ [45] ++ pad2 d

/-- `iso_str.replace("Z", "+00:00")`: every `Z` replaced. -/
def replaceZ (s : Str) : Str :=
  s.foldr (fun c acc => (if c = 90 then str "+00:00" else [c]) ++ acc) []

/-- `iso_to_date(iso_str)` from `load_data.py` lines 93–100. -/
def iso_to_date (s : Str) : Str :=
  match parseIso (replaceZ s) with
  | some (y, m, d) => fmtYMD y m d
  | none => s.take 10

/-! ### Canonical record builder (`main` lines 126–148)

Raw input records carry optional, aliasable fields; `safe_str` plus Python
`or`-chains normalize them.  A falsy value (absent key, `None`, or the empty
string) falls through to the next alias. -/

/-- A loosely structured input record (one JSON object of the input file). -/
structure RawRecord where
  arxiv_id : Option Str := none
  id : Option Str := none
  title : Option Str := none
  authors : Option (List Str) := none
  abstract : Option Str := none
  categories : Option (List Str) := none
  published : Option Str := none
  updated : Option Str := none
  date : Option Str := none
deriving DecidableEq, Repr

/-- Python `x or y` on strings: `y` if `x` is falsy (empty). -/
def orS (x y : Str) : Str := if x = [] then y else x

/-- `safe_str(p.get("arxiv_id") or p.get("id"))`. -/
def normId (r : RawRecord) : Str := orS (r.arxiv_id.getD []) (r.id.getD [])

/-- `safe_str(p.get("title"))`. -/
def normTitle (r : RawRecord) : Str := r.title.getD []

/-- `safe_str(p.get("published") or p.get("updated") or p.get("date"))`. -/
def normPub (r : RawRecord) : Str :=
  orS (orS (r.published.getD []) (r.updated.getD [])) (r.date.getD [])

/-- `p.get("authors") or []`. -/
def normAuthors (r : RawRecord) : List Str := r.authors.getD []

/-- `p.get("categories") or []`. -/
def normCats (r : RawRecord) : List Str := r.categories.getD []

/-- `safe_str(p.get("abstract"))`. -/
def normAbstract (r : RawRecord) : Str := r.abstract.getD []

/-- The canonical record: the `core` payload dict of `main` (lines 140–148).
`published` holds the string taken from the source record (the raw
timestamp), exactly as the code stores it. -/
structure Canon where
  arxiv_id : Str
  title : Str
  authors : List Str
  abstract : Str
  categories : List Str
  keywords : List Str
  published : Str
deriving DecidableEq, Repr

/-- Validation plus normalization: `None` models the `continue` that skips a
record whose id, title, or published date is empty after normalization
(lines 134–135). -/
def canonicalize (r : RawRecord) : Option Canon :=
  if normId r = [] ∨ normTitle r = [] ∨ normPub r = [] then none
  else some
    { arxiv_id := normId r
      title := normTitle r
      authors := normAuthors r
      abstract := normAbstract r
      categories := normCats r
      keywords := extract_keywords (normAbstract r) 10
      published := normPub r }

/-! ### Index projection (`main` lines 150–193) -/

/-- One denormalized index item: primary key pair, the optional secondary
index key pairs, and the full canonical payload. -/
structure Item where
  PK : Str
  SK : Str
  GSI1PK : Option Str := none
  GSI1SK : Option Str := none
  GSI2PK : Option Str := none
  GSI2SK : Option Str := none
  GSI3PK : Option Str := none
  GSI3SK : Option Str := none
  core : Canon
deriving DecidableEq, Repr

/-- `date_str` of a canonical record. -/
def dateStr (c : Canon) : Str := iso_to_date c.published

/-- The `<date>#<id>` sort key. -/
def dateIdSK (c : Canon) : Str := dateStr c ++ 35 :: c.arxiv_id

/-- The `PAPER#` item (lines 151–157). -/
def paperItem (c : Canon) : Item :=
  { PK := str "PAPER#" ++ c.arxiv_id
    SK := str "A"
    GSI2PK := some (str "PAPER#" ++ c.arxiv_id)
    GSI2SK := some (dateStr c)
    core := c }

/-- One `CATEGORY#` item (lines 161–169). -/
def catItem (c : Canon) (cat : Str) : Item :=
  { PK := str "CATEGORY#" ++ cat
    SK := dateIdSK c
    core := c }

/-- One `AUTHOR#` item (lines 171–181). -/
def authItem (c : Canon) (author : Str) : Item :=
  { PK := str "AUTHOR#" ++ author
    SK := dateIdSK c
    GSI1PK := some (str "AUTHOR#" ++ author)
    GSI1SK := some (dateIdSK c)
    core := c }

/-- One `KEYWORD#` item (lines 183–193). -/
def kwItem (c : Canon) (kw : Str) : Item :=
  { PK := str "KEYWORD#" ++ kw
    SK := dateIdSK c
    GSI3PK := some (str "KEYWORD#" ++ kw)
    GSI3SK := some (dateIdSK c)
    core := c }

/-- The full projection of one canonical record, in write order. -/
def projectItems (c : Canon) : List Item :=
  paperItem c :: (c.categories.map (catItem c) ++ c.authors.map (authItem c)
    ++ c.keywords.map (kwItem c))

/-! ### Store model

The store is a list of items addressed by the composite key `(PK, SK)`;
`putItem` is the overwrite-on-conflicting-key upsert of
`batch_writer(overwrite_by_pkeys=["PK","SK"])`. -/

/-- Composite primary key of an item. -/
def Item.key (it : Item) : Str × Str := (it.PK, it.SK)

/-- The store: items in insertion order, one per composite key when built by
`putItem` from the empty store. -/
abbrev Store := List Item

/-- Overwrite-on-conflict upsert by `(PK, SK)`. -/
def putItem (s : Store) (it : Item) : Store :=
  if s.any (fun e => e.key == it.key) then
    s.map (fun e => if e.key == it.key then it else e)
  else s ++ [it]

/-- Write a batch of items in order. -/
def putItems (s : Store) (l : List Item) : Store := l.foldl putItem s

/-- Load one raw record: skip on validation failure, otherwise project and
write (the per-record body of `main`, lines 127–195). -/
def loadRecord (s : Store) (r : RawRecord) : Store :=
  match canonicalize r with
  | none => s
  | some c => putItems s (projectItems c)

/-- Load a whole input sequence. -/
def loadRecords (s : Store) (rs : List RawRecord) : Store := rs.foldl loadRecord s

/-- The load statistics counters of `main` (`stats` and `total_papers`). -/
structure Stats where
  total_papers : Nat
  paper_id_items : Nat
  category_items : Nat
  author_items : Nat
  keyword_items : Nat
deriving DecidableEq, Repr

/-- Counter increments for one successfully loaded record. -/
def bump (st : Stats) (c : Canon) : Stats :=
  { total_papers := st.total_papers + 1
    paper_id_items := st.paper_id_items + 1
    category_items := st.category_items + c.categories.length
    author_items := st.author_items + c.authors.length
    keyword_items := st.keyword_items + c.keywords.length }

/-- One iteration of the load loop, store and statistics together. -/
def loadStep (x : Store × Stats) (r : RawRecord) : Store × Stats :=
  match canonicalize r with
  | none => x
  | some c => (putItems x.1 (projectItems c), bump x.2 c)

/-- The whole load pass. -/
def runLoad (x : Store × Stats) (rs : List RawRecord) : Store × Stats :=
  rs.foldl loadStep x

/-! ### Query engine (`query_papers.py`) -/

/-- The items of the `PaperIdIndex` partition `GSI2PK = p` (only items that
set `GSI2PK` appear in that secondary index). -/
def gsi2Query (s : Store) (p : Str) : List Item :=
  s.filter (fun it => it.GSI2PK == some p)

/-- `get_paper_by_id` (lines 51–66): `(results, count)` of its envelope. -/
def get_paper_by_id (s : Store) (arxiv_id : Str) : List Item × Nat :=
  match gsi2Query s (str "PAPER#" ++ arxiv_id) with
  | [] => ([], 0)
  | it :: _ => ([it], 1)

/-- `query_papers_in_date_range` (lines 68–82): the `CATEGORY#<category>`
partition restricted to the sort-key range `[start#, end#zzzzzzz]`,
as `(results, count)`. -/
def query_papers_in_date_range (s : Store) (category start_date end_date : Str) :
    List Item × Nat :=
  let res := s.filter (fun it =>
    it.PK == str "CATEGORY#" ++ category
    && lexLe (start_date ++ [35]) it.SK
    && lexLe it.SK (end_date ++ str "#zzzzzzz"))
  (res, res.length)

/-- The partition key probed by `query_papers_by_keyword` (line 89): the
keyword is case-folded before lookup. -/
def kwQueryKey (keyword : Str) : Str := str "KEYWORD#" ++ lowerStr keyword

/-! ### Auxiliary definitions for the proofs -/

/-- Value of the last entry of a batch carrying a given composite key. -/
def findLast (l : List Item) (k : Str × Str) : Option Item :=
  match l with
  | [] => none
  | i :: t =>
    match findLast t k with
    | some v => some v
    | none => if i.key == k then some i else none

/-- Composite keys of a store, in order. -/
def keysOf (s : Store) : List (Str × Str) := s.map Item.key

/-- A word's rank precedes another's: strictly higher frequency, or equal
frequency and earlier first occurrence among the filtered tokens. -/
def rankBefore (a : Str) (v w : Str) : Prop :=
  (filteredTokens a).count w < (filteredTokens a).count v ∨
    ((filteredTokens a).count v = (filteredTokens a).count w ∧
      idxOf v (filteredTokens a) < idxOf w (filteredTokens a))

/-- The §8 example input record. -/
def exRec : RawRecord :=
  { id := some (str "2301.00001")
    title := some (str "Graph Neural Networks for Traffic")
    authors := some [str "A. Lee", str "B. Chen"]
    abstract := some (str "graph neural networks traffic graph prediction traffic networks graph")
    categories := some [str "cs.LG"]
    published := some (str "2023-01-15T10:30:00Z") }

/-- The canonical record the §8 example normalizes to. -/
def exCanon : Canon :=
  { arxiv_id := str "2301.00001"
    title := str "Graph Neural Networks for Traffic"
    authors := [str "A. Lee", str "B. Chen"]
    abstract := str "graph neural networks traffic graph prediction traffic networks graph"
    categories := [str "cs.LG"]
    keywords := [str "graph", str "networks", str "traffic", str "neural", str "prediction"]
    published := str "2023-01-15T10:30:00Z" }

/-- A record whose title is missing (validation must skip it). -/
def noTitleRec : RawRecord :=
  { arxiv_id := some (str "2302.99999")
    published := some (str "2023-02-01T00:00:00Z") }

/-- A valid record whose id `zzzzzzzz` sorts above the `zzzzzzz` range
suffix used by the date-range query. -/
def zRec : RawRecord :=
  { arxiv_id := some (str "zzzzzzzz")
    title := some (str "T")
    categories := some [str "cs.LG"]
    published := some (str "2023-01-15T10:30:00Z") }

/-- An 11-distinct-keyword abstract: `kappa` ranks last and is cut by the
top-10 truncation. -/
def elevenAbs : Str :=
  str "alpha alpha beta beta gamma gamma delta delta epsilon epsilon zeta zeta eta eta theta theta iota iota lambda lambda kappa"

/-- Character class of extracted-token characters: lowercase ASCII letter,
digit, or hyphen (no uppercase survives the case fold). -/
def isLowerOut (n : Nat) : Bool :=
  decide ((97 ≤ n ∧ n ≤ 122) ∨ (48 ≤ n ∧ n ≤ 57) ∨ n = 45)

/-! ## Keyword-extraction lemmas -/

/-- The ordering a stable descending-by-count sort guarantees: strictly
larger count first, input order preserved on ties. -/
def descStable (p : Str × Nat → Str × Nat → Prop) (u v : Str × Nat) : Prop :=
  v.2 < u.2 ∨ (u.2 = v.2 ∧ p u v)

lemma insertDesc_perm (x : Str × Nat) (l : List (Str × Nat)) :
    (insertDesc x l).Perm (x :: l) := by
  induction l with
  | nil => exact List.Perm.refl _
  | cons y ys ih =>
    unfold insertDesc
    split
    · exact List.Perm.refl _
    · exact (ih.cons y).trans (List.Perm.swap x y ys)

lemma sortDesc_perm (l : List (Str × Nat)) : (sortDesc l).Perm l := by
  suffices h : ∀ (l acc : List (Str × Nat)),
      (l.foldl (fun acc x => insertDesc x acc) acc).Perm (acc ++ l) by
    simpa using h l []
  intro l
  induction l with
  | nil => intro acc; simp
  | cons x t ih =>
    intro acc
    rw [List.foldl_cons]
    refine (ih (insertDesc x acc)).trans ?_
    have h1 : (insertDesc x acc ++ t).Perm ((x :: acc) ++ t) :=
      (insertDesc_perm x acc).append_right t
    have h3 : (x :: (acc ++ t)).Perm (acc ++ x :: t) := List.perm_middle.symm
    exact h1.trans h3

lemma mem_insertDesc {x z : Str × Nat} {l : List (Str × Nat)} :
    z ∈ insertDesc x l ↔ z = x ∨ z ∈ l := by
  rw [(insertDesc_perm x l).mem_iff, List.mem_cons]

lemma insertDesc_pairwise {p : Str × Nat → Str × Nat → Prop} {x : Str × Nat}
    {l : List (Str × Nat)} (hl : l.Pairwise (descStable p))
    (hx : ∀ y ∈ l, p y x) :
    (insertDesc x l).Pairwise (descStable p) := by
  induction l with
  | nil => simp [insertDesc]
  | cons y ys ih =>
    rw [List.pairwise_cons] at hl
    unfold insertDesc
    split
    · rename_i hlt
      rw [List.pairwise_cons]
      constructor
      · intro z hz
        rcases List.mem_cons.mp hz with rfl | hz'
        · exact Or.inl hlt
        · rcases hl.1 z hz' with h' | ⟨heq, _⟩
          · exact Or.inl (by omega)
          · exact Or.inl (by omega)
      · exact List.pairwise_cons.mpr hl
    · rename_i hge
      rw [List.pairwise_cons]
      constructor
      · intro z hz
        rcases mem_insertDesc.mp hz with rfl | hz'
        · rcases Nat.lt_or_ge z.2 y.2 with h' | h'
          · exact Or.inl h'
          · exact Or.inr ⟨by omega, hx y (by simp)⟩
        · exact hl.1 z hz'
      · exact ih hl.2 (fun z hz => hx z (by simp [hz]))

lemma sortDesc_pairwise {p : Str × Nat → Str × Nat → Prop}
    {l : List (Str × Nat)} (hl : l.Pairwise p) :
    (sortDesc l).Pairwise (descStable p) := by
  suffices h : ∀ (l acc : List (Str × Nat)), acc.Pairwise (descStable p) →
      (∀ y ∈ acc, ∀ x ∈ l, p y x) → l.Pairwise p →
      (l.foldl (fun acc x => insertDesc x acc) acc).Pairwise (descStable p) by
    exact h l [] (by simp) (by simp) hl
  intro l
  induction l with
  | nil => intro acc hacc _ _; simpa using hacc
  | cons x t ih =>
    intro acc hacc hcross hl
    rw [List.foldl_cons]
    rw [List.pairwise_cons] at hl
    apply ih
    · exact insertDesc_pairwise hacc (fun y hy => hcross y hy x (by simp))
    · intro y hy z hz
      rcases mem_insertDesc.mp hy with rfl | hy'
      · exact hl.1 z hz
      · exact hcross y hy' z (by simp [hz])
    · exact hl.2

lemma dedupAcc_mem : ∀ {l seen : List Str} {x : Str},
    x ∈ dedupAcc seen l ↔ (x ∈ l ∧ x ∉ seen) := by
  intro l
  induction l with
  | nil => intro seen x; simp [dedupAcc]
  | cons y t ih =>
    intro seen x
    unfold dedupAcc
    by_cases hy : seen.contains y = true
    · rw [if_pos hy, ih]
      have hymem : y ∈ seen := by simpa using hy
      constructor
      · rintro ⟨hxt, hxs⟩; exact ⟨by simp [hxt], hxs⟩
      · rintro ⟨hxl, hxs⟩
        rcases List.mem_cons.mp hxl with rfl | hxt
        · exact absurd hymem hxs
        · exact ⟨hxt, hxs⟩
    · rw [if_neg hy]
      have hynot : y ∉ seen := fun hmem => hy (by simpa using hmem)
      constructor
      · intro hx
        rcases List.mem_cons.mp hx with rfl | hx'
        · exact ⟨by simp, hynot⟩
        · have h' := ih.mp hx'
          exact ⟨by simp [h'.1], fun hxs => h'.2 (by simp [hxs])⟩
      · rintro ⟨hxl, hxs⟩
        rcases List.mem_cons.mp hxl with rfl | hxt
        · exact List.mem_cons_self _ _
        · by_cases hxy : x = y
          · subst hxy; exact List.mem_cons_self _ _
          · exact List.mem_cons_of_mem _ (ih.mpr ⟨hxt, by simp [hxs, hxy]⟩)

lemma dedupAcc_nodup : ∀ {l seen : List Str}, (dedupAcc seen l).Nodup := by
  intro l
  induction l with
  | nil => intro seen; simp [dedupAcc]
  | cons y t ih =>
    intro seen
    unfold dedupAcc
    split
    · exact ih
    · rw [List.nodup_cons]
      refine ⟨?_, ih⟩
      intro hmem
      exact (dedupAcc_mem.mp hmem).2 (by simp)

lemma dedupAcc_pairwise_idx : ∀ (l seen : List Str),
    (dedupAcc seen l).Pairwise (fun u v => idxOf u l < idxOf v l) := by
  intro l
  induction l with
  | nil => intro seen; simp [dedupAcc]
  | cons y t ih =>
    intro seen
    unfold dedupAcc
    split
    · rename_i hy
      have hymem : y ∈ seen := by simpa using hy
      refine List.Pairwise.imp_of_mem ?_ (ih seen)
      intro a b ha hb hr
      have ha' := dedupAcc_mem.mp ha
      have hb' := dedupAcc_mem.mp hb
      have hay : a ≠ y := by rintro rfl; exact ha'.2 hymem
      have hby : b ≠ y := by rintro rfl; exact hb'.2 hymem
      show idxOf a (y :: t) < idxOf b (y :: t)
      simp only [idxOf, if_neg hay, if_neg hby]
      omega
    · rename_i hy
      rw [List.pairwise_cons]
      constructor
      · intro v hv
        have hv' := dedupAcc_mem.mp hv
        have hvy : v ≠ y := fun h => hv'.2 (h ▸ List.mem_cons_self _ _)
        show idxOf y (y :: t) < idxOf v (y :: t)
        simp [idxOf, hvy]
      · refine List.Pairwise.imp_of_mem ?_ (ih (y :: seen))
        intro a b ha hb hr
        have ha' := dedupAcc_mem.mp ha
        have hb' := dedupAcc_mem.mp hb
        have hay : a ≠ y := fun h => ha'.2 (h ▸ List.mem_cons_self _ _)
        have hby : b ≠ y := fun h => hb'.2 (h ▸ List.mem_cons_self _ _)
        show idxOf a (y :: t) < idxOf b (y :: t)
        simp only [idxOf, if_neg hay, if_neg hby]
        omega

lemma mem_counterItems {l : List Str} {q : Str × Nat} :
    q ∈ counterItems l ↔ q.1 ∈ dedupF l ∧ q.2 = l.count q.1 := by
  unfold counterItems
  constructor
  · intro h
    rcases List.mem_map.mp h with ⟨w, hw, rfl⟩
    exact ⟨hw, rfl⟩
  · rintro ⟨h1, h2⟩
    refine List.mem_map.mpr ⟨q.1, h1, ?_⟩
    cases q with
    | mk w n => simpa using h2.symm

lemma counterItems_pairwise (l : List Str) :
    (counterItems l).Pairwise (fun u v => idxOf u.1 l < idxOf v.1 l) := by
  unfold counterItems
  rw [List.pairwise_map]
  exact dedupAcc_pairwise_idx l []

lemma counterItems_fst (l : List Str) :
    (counterItems l).map Prod.fst = dedupF l := by
  unfold counterItems
  rw [List.map_map]
  have h : (Prod.fst ∘ fun w => (w, l.count w)) = fun w : Str => w := rfl
  rw [h]
  exact List.map_id' _

/-! ## Store lemmas: overwrite-on-conflict upsert -/

lemma findLast_cons (i : Item) (t : List Item) (k : Str × Str) :
    findLast (i :: t) k = match findLast t k with
      | some v => some v
      | none => if i.key == k then some i else none := rfl

lemma putItem_mem {s : Store} {it e : Item} (h : e ∈ putItem s it) :
    e = it ∨ (e ∈ s ∧ e.key ≠ it.key) := by
  unfold putItem at h
  split at h
  · rcases List.mem_map.mp h with ⟨x, hx, hfx⟩
    by_cases hk : x.key = it.key
    · left; rw [← hfx]; simp [hk]
    · right
      have hex : e = x := by rw [← hfx]; simp [hk]
      subst hex; exact ⟨hx, hk⟩
  · rename_i hany
    rcases List.mem_append.mp h with he | he
    · right
      refine ⟨he, ?_⟩
      intro hkey
      exact hany (List.any_eq_true.mpr ⟨e, he, by simp [hkey]⟩)
    · left; simpa using he

lemma keysOf_putItem_any {s : Store} {it : Item}
    (h : s.any (fun e => e.key == it.key) = true) :
    keysOf (putItem s it) = keysOf s := by
  unfold putItem keysOf
  rw [if_pos h, List.map_map]
  apply List.map_congr_left
  intro x _
  by_cases hk : x.key = it.key <;> simp [hk]

lemma keysOf_putItem_fresh {s : Store} {it : Item}
    (h : ¬ s.any (fun e => e.key == it.key) = true) :
    keysOf (putItem s it) = keysOf s ++ [it.key] := by
  unfold putItem keysOf
  rw [if_neg h, List.map_append]
  rfl

lemma mem_keysOf_putItem {s : Store} {it : Item} {k : Str × Str}
    (h : k ∈ keysOf s) : k ∈ keysOf (putItem s it) := by
  by_cases hany : s.any (fun e => e.key == it.key) = true
  · rwa [keysOf_putItem_any hany]
  · rw [keysOf_putItem_fresh hany]; exact List.mem_append_left _ h

lemma self_mem_keysOf_putItem (s : Store) (it : Item) :
    it.key ∈ keysOf (putItem s it) := by
  by_cases hany : s.any (fun e => e.key == it.key) = true
  · rw [keysOf_putItem_any hany]
    rcases List.any_eq_true.mp hany with ⟨x, hx, hkey⟩
    have : x.key = it.key := by simpa using hkey
    exact this ▸ List.mem_map.mpr ⟨x, hx, rfl⟩
  · rw [keysOf_putItem_fresh hany]
    exact List.mem_append_right _ (by simp)

lemma mem_keysOf_putItems {s : Store} {L : List Item} {k : Str × Str}
    (h : k ∈ keysOf s) : k ∈ keysOf (putItems s L) := by
  induction L generalizing s with
  | nil => exact h
  | cons i t ih => exact ih (mem_keysOf_putItem h)

lemma keys_sub_putItems {L : List Item} (s : Store) :
    ∀ x ∈ L, x.key ∈ keysOf (putItems s L) := by
  induction L generalizing s with
  | nil => intro x hx; cases hx
  | cons i t ih =>
    intro x hx
    rcases List.mem_cons.mp hx with rfl | hx
    · show x.key ∈ keysOf (putItems (putItem s x) t)
      exact mem_keysOf_putItems (self_mem_keysOf_putItem s x)
    · exact ih (putItem s i) x hx

lemma any_key_of_mem_keysOf {s : Store} {k : Str × Str} (h : k ∈ keysOf s) :
    s.any (fun e => e.key == k) = true := by
  rcases List.mem_map.mp h with ⟨x, hx, hkey⟩
  exact List.any_eq_true.mpr ⟨x, hx, by simp [hkey]⟩

lemma putItems_eq_map {L : List Item} {s : Store}
    (h : ∀ x ∈ L, x.key ∈ keysOf s) :
    putItems s L = s.map (fun e =>
      match findLast L e.key with
      | some v => v
      | none => e) := by
  induction L generalizing s with
  | nil =>
    simp only [putItems, List.foldl_nil, findLast]
    exact (List.map_id _).symm
  | cons i t ih =>
    have hik : i.key ∈ keysOf s := h i (by simp)
    have hany : s.any (fun e => e.key == i.key) = true := any_key_of_mem_keysOf hik
    have hput : putItem s i = s.map (fun e => if e.key == i.key then i else e) := by
      unfold putItem; rw [if_pos hany]
    have hkeys : keysOf (putItem s i) = keysOf s := keysOf_putItem_any hany
    have hsub : ∀ x ∈ t, x.key ∈ keysOf (putItem s i) := by
      intro x hx; rw [hkeys]; exact h x (by simp [hx])
    have : putItems s (i :: t) = putItems (putItem s i) t := rfl
    rw [this, ih hsub, hput, List.map_map]
    apply List.map_congr_left
    intro e _
    simp only [Function.comp_apply]
    by_cases he : e.key = i.key
    · rw [if_pos (by simp [he] : (e.key == i.key) = true), he]
      cases hft : findLast t i.key with
      | none => simp [findLast_cons, hft]
      | some v => simp [findLast_cons, hft]
    · rw [if_neg (by simp [he])]
      cases hft : findLast t e.key with
      | none => simp [findLast_cons, hft, Ne.symm he]
      | some v => simp [findLast_cons, hft]

lemma putItems_mem {s : Store} {L : List Item} {e : Item}
    (h : e ∈ putItems s L) : e ∈ s ∨ e ∈ L := by
  induction L generalizing s with
  | nil => exact Or.inl h
  | cons i t ih =>
    rcases ih h with he | he
    · rcases putItem_mem he with rfl | ⟨he, _⟩
      · exact Or.inr (by simp)
      · exact Or.inl he
    · exact Or.inr (by simp [he])

lemma findLast_entry {s : Store} {L : List Item} {e : Item}
    (h : e ∈ putItems s L) :
    findLast L e.key = some e ∨ (findLast L e.key = none ∧ e ∈ s) := by
  induction L generalizing s with
  | nil => exact Or.inr ⟨rfl, h⟩
  | cons i t ih =>
    rcases ih h with hsome | ⟨hnone, hmem⟩
    · left; simp [findLast, hsome]
    · rcases putItem_mem hmem with rfl | ⟨hes, hne⟩
      · left; simp [findLast, hnone]
      · right
        refine ⟨?_, hes⟩
        simp [findLast, hnone, Ne.symm hne]

lemma putItems_idem (s : Store) (L : List Item) :
    putItems (putItems s L) L = putItems s L := by
  rw [putItems_eq_map (keys_sub_putItems s)]
  conv_rhs => rw [← List.map_id (putItems s L)]
  apply List.map_congr_left
  intro e he
  rcases findLast_entry he with hsome | ⟨hnone, _⟩
  · simp [hsome]
  · simp [hnone]

/-! ## Canonicalization and projection lemmas -/

lemma canonicalize_some {r : RawRecord} {c : Canon} (h : canonicalize r = some c) :
    c = { arxiv_id := normId r, title := normTitle r, authors := normAuthors r,
          abstract := normAbstract r, categories := normCats r,
          keywords := extract_keywords (normAbstract r) 10, published := normPub r }
    ∧ normId r ≠ [] ∧ normTitle r ≠ [] ∧ normPub r ≠ [] := by
  unfold canonicalize at h
  split at h
  · cases h
  · rename_i hcond
    push_neg at hcond
    exact ⟨(Option.some.inj h).symm, hcond.1, hcond.2.1, hcond.2.2⟩

lemma beq_cons_append_ne {a b : Nat} {t1 t2 : Str} (h : a ≠ b) (x y : Str) :
    ((a :: t1) ++ x == (b :: t2) ++ y) = false := by
  simp only [List.cons_append, beq_eq_false_iff_ne]
  intro hEq
  injection hEq with h1 _
  exact h h1

lemma beq_append_left (p x y : Str) : (p ++ x == p ++ y) = (x == y) := by
  by_cases hxy : x = y <;> simp [hxy]

lemma strPAPER_cons : str "PAPER#" = 80 :: str "APER#" := by decide

lemma strAUTHOR_cons : str "AUTHOR#" = 65 :: str "UTHOR#" := by decide

lemma strCATEGORY_cons : str "CATEGORY#" = 67 :: str "ATEGORY#" := by decide

lemma strKEYWORD_cons : str "KEYWORD#" = 75 :: str "EYWORD#" := by decide

/-- C2: reloading the same source record is idempotent on the store
(modelled as a `(PK, SK)`-keyed map with overwrite-on-conflict), with no
growth in the item count. -/
theorem reload_idempotent (s : Store) (r : RawRecord) :
    loadRecord (loadRecord s r) r = loadRecord s r
    ∧ (loadRecord (loadRecord s r) r).length = (loadRecord s r).length := by
  have h1 : loadRecord (loadRecord s r) r = loadRecord s r := by
    unfold loadRecord
    cases hc : canonicalize r with
    | none => rfl
    | some c => exact putItems_idem s (projectItems c)
  exact ⟨h1, by rw [h1]⟩

/-- C1: a record accepted by validation projects exactly
`1 + |categories| + |authors| + |keywords|` index items — one `PAPER#` item,
one `CATEGORY#` item per category entry, one `AUTHOR#` item per author
entry, one `KEYWORD#` item per extracted keyword — with no deduplication of
repeated authors or categories (the per-partition item counts equal the
multiplicities in the source lists). -/
theorem item_count_per_paper (r : RawRecord) (c : Canon)
    (h : canonicalize r = some c) :
    (projectItems c).length
      = 1 + c.categories.length + c.authors.length + c.keywords.length
    ∧ c.keywords = extract_keywords c.abstract 10
    ∧ ((projectItems c).filter (fun it => it.GSI2PK.isSome)).length = 1
    ∧ (∀ a, ((projectItems c).filter (fun it => it.PK == str "AUTHOR#" ++ a)).length
        = c.authors.count a)
    ∧ (∀ cat, ((projectItems c).filter (fun it => it.PK == str "CATEGORY#" ++ cat)).length
        = c.categories.count cat) := by
  refine ⟨?_, ?_, ?_, ?_, ?_⟩
  · simp [projectItems]; omega
  · obtain ⟨rfl, -, -, -⟩ := canonicalize_some h
    rfl
  · simp [projectItems, List.filter_append, List.filter_map, Function.comp_def,
      paperItem, catItem, authItem, kwItem]
  · intro a
    have hp : ((paperItem c).PK == str "AUTHOR#" ++ a) = false := by
      show (str "PAPER#" ++ c.arxiv_id == str "AUTHOR#" ++ a) = false
      rw [strPAPER_cons, strAUTHOR_cons]
      exact beq_cons_append_ne (by decide) _ _
    have hcat : ∀ x : Str, ((catItem c x).PK == str "AUTHOR#" ++ a) = false := by
      intro x
      show (str "CATEGORY#" ++ x == str "AUTHOR#" ++ a) = false
      rw [strCATEGORY_cons, strAUTHOR_cons]
      exact beq_cons_append_ne (by decide) _ _
    have hkw : ∀ x : Str, ((kwItem c x).PK == str "AUTHOR#" ++ a) = false := by
      intro x
      show (str "KEYWORD#" ++ x == str "AUTHOR#" ++ a) = false
      rw [strKEYWORD_cons, strAUTHOR_cons]
      exact beq_cons_append_ne (by decide) _ _
    have hauth : ∀ x : Str, ((authItem c x).PK == str "AUTHOR#" ++ a) = (x == a) := by
      intro x
      show (str "AUTHOR#" ++ x == str "AUTHOR#" ++ a) = (x == a)
      exact beq_append_left _ _ _
    simp [projectItems, List.filter_append, List.filter_map, Function.comp_def,
      hp, hcat, hkw, hauth, List.count, List.countP_eq_length_filter]
  · intro cat
    have hp : ((paperItem c).PK == str "CATEGORY#" ++ cat) = false := by
      show (str "PAPER#" ++ c.arxiv_id == str "CATEGORY#" ++ cat) = false
      rw [strPAPER_cons, strCATEGORY_cons]
      exact beq_cons_append_ne (by decide) _ _
    have hauth : ∀ x : Str, ((authItem c x).PK == str "CATEGORY#" ++ cat) = false := by
      intro x
      show (str "AUTHOR#" ++ x == str "CATEGORY#" ++ cat) = false
      rw [strAUTHOR_cons, strCATEGORY_cons]
      exact beq_cons_append_ne (by decide) _ _
    have hkw : ∀ x : Str, ((kwItem c x).PK == str "CATEGORY#" ++ cat) = false := by
      intro x
      show (str "KEYWORD#" ++ x == str "CATEGORY#" ++ cat) = false
      rw [strKEYWORD_cons, strCATEGORY_cons]
      exact beq_cons_append_ne (by decide) _ _
    have hcat : ∀ x : Str, ((catItem c x).PK == str "CATEGORY#" ++ cat) = (x == cat) := by
      intro x
      show (str "CATEGORY#" ++ x == str "CATEGORY#" ++ cat) = (x == cat)
      exact beq_append_left _ _ _
    simp [projectItems, List.filter_append, List.filter_map, Function.comp_def,
      hp, hcat, hkw, hauth, List.count, List.countP_eq_length_filter]

/-- C1 witness: the §8 example record is accepted and projects
1 + 1 + 2 + 5 = 9 items. -/
theorem item_count_per_paper_witness :
    canonicalize exRec = some exCanon
    ∧ (projectItems exCanon).length
        = 1 + exCanon.categories.length + exCanon.authors.length + exCanon.keywords.length
    ∧ (projectItems exCanon).length = 9 := by
  refine ⟨by decide, (item_count_per_paper exRec exCanon (by decide)).1, by decide⟩

/-- C6: a record whose id, title, or published date is empty after
normalization (alias probing included) is skipped: no index item is
written, no statistics counter moves, and the load continues with the
remaining records. -/
theorem validation_skips (r : RawRecord)
    (h : normId r = [] ∨ normTitle r = [] ∨ normPub r = []) :
    canonicalize r = none
    ∧ (∀ x : Store × Stats, loadStep x r = x)
    ∧ (∀ (x : Store × Stats) (rs : List RawRecord), runLoad x (r :: rs) = runLoad x rs) := by
  have hc : canonicalize r = none := by unfold canonicalize; rw [if_pos h]
  have hstep : ∀ x : Store × Stats, loadStep x r = x := by
    intro x; unfold loadStep; rw [hc]
  refine ⟨hc, hstep, fun x rs => ?_⟩
  unfold runLoad
  rw [List.foldl_cons, hstep x]

/-- C6 witness: a record with no title is skipped and the load of the
remaining sequence is unchanged. -/
theorem validation_skips_witness :
    normTitle noTitleRec = []
    ∧ canonicalize noTitleRec = none
    ∧ loadStep ([], ⟨0, 0, 0, 0, 0⟩) noTitleRec = ([], ⟨0, 0, 0, 0, 0⟩)
    ∧ runLoad ([], ⟨0, 0, 0, 0, 0⟩) [noTitleRec, exRec]
        = runLoad ([], ⟨0, 0, 0, 0, 0⟩) [exRec] := by
  have h := validation_skips noTitleRec (Or.inr (Or.inl (by decide)))
  exact ⟨by decide, h.1, h.2.1 _, h.2.2 _ _⟩

lemma projectItems_core {c : Canon} {it : Item} (hit : it ∈ projectItems c) :
    it.core = c := by
  rcases List.mem_cons.mp hit with rfl | hit'
  · rfl
  rcases List.mem_append.mp hit' with h12 | h3
  · rcases List.mem_append.mp h12 with h1 | h2
    · rcases List.mem_map.mp h1 with ⟨x, _, rfl⟩; rfl
    · rcases List.mem_map.mp h2 with ⟨x, _, rfl⟩; rfl
  · rcases List.mem_map.mp h3 with ⟨x, _, rfl⟩; rfl

lemma projectItems_SK {c : Canon} {it : Item} (hit : it ∈ projectItems c) :
    it.SK = str "A" ∨ it.SK = dateStr c ++ 35 :: c.arxiv_id := by
  rcases List.mem_cons.mp hit with rfl | hit'
  · exact Or.inl rfl
  rcases List.mem_append.mp hit' with h12 | h3
  · rcases List.mem_append.mp h12 with h1 | h2
    · rcases List.mem_map.mp h1 with ⟨x, _, rfl⟩; exact Or.inr rfl
    · rcases List.mem_map.mp h2 with ⟨x, _, rfl⟩; exact Or.inr rfl
  · rcases List.mem_map.mp h3 with ⟨x, _, rfl⟩; exact Or.inr rfl

/-- C9 (amended): every projected item carries the full canonical payload,
and that payload's `published` field holds the raw source timestamp string;
the normalized calendar date appears in the keys (the `PAPER#` item's GSI
sort key and the `<date>#<id>` sort keys), not in the payload. -/
theorem payload_keeps_raw_timestamp (r : RawRecord) (c : Canon)
    (h : canonicalize r = some c) :
    c.published = normPub r
    ∧ (∀ it ∈ projectItems c, it.core = c)
    ∧ (paperItem c).GSI2SK = some (iso_to_date c.published)
    ∧ (∀ it ∈ projectItems c,
        it.SK = str "A" ∨ it.SK = iso_to_date c.published ++ 35 :: c.arxiv_id) := by
  obtain ⟨rfl, -, -, -⟩ := canonicalize_some h
  exact ⟨rfl, fun it hit => projectItems_core hit, rfl,
    fun it hit => projectItems_SK hit⟩

/-- C9 counterexample: for the §8 example, the stored payload's `published`
field is the raw timestamp `2023-01-15T10:30:00Z`, not the normalized
calendar date `2023-01-15` the claim asserts. -/
theorem payload_date_cex :
    canonicalize exRec = some exCanon
    ∧ exCanon.published = str "2023-01-15T10:30:00Z"
    ∧ iso_to_date exCanon.published = str "2023-01-15"
    ∧ (paperItem exCanon).core.published ≠ str "2023-01-15" := by
  exact ⟨by decide, by decide, by decide, by decide⟩

/-- C9 witness: the amended statement instantiated at the §8 example. -/
theorem payload_keeps_raw_timestamp_witness :
    exCanon.published = normPub exRec
    ∧ (paperItem exCanon).GSI2SK = some (iso_to_date exCanon.published) := by
  have h := payload_keeps_raw_timestamp exRec exCanon (by decide)
  exact ⟨h.1, h.2.2.1⟩

/-! ## Date normalization lemmas -/

lemma parseIso_valid {s : Str} {y m d : Nat}
    (h : parseIso s = some (y, m, d)) :
    1 ≤ y ∧ 1 ≤ m ∧ m ≤ 12 ∧ 1 ≤ d ∧ d ≤ daysInMonth y m := by
  unfold parseIso at h
  split at h; · cases h
  split at h; · cases h
  split at h; · cases h
  split at h; · cases h
  split at h; · cases h
  split at h
  · cases h
  · rename_i hcond
    push_neg at hcond
    split at h
    · injection h with h'
      injection h' with h1 h'
      injection h' with h2 h3
      subst h1; subst h2; subst h3
      omega
    · split at h
      · injection h with h'
        injection h' with h1 h'
        injection h' with h2 h3
        subst h1; subst h2; subst h3
        omega
      · cases h

lemma replaceZ_append (a b : Str) : replaceZ (a ++ b) = replaceZ a ++ replaceZ b := by
  induction a with
  | nil => simp [replaceZ]
  | cons c t ih =>
    simp only [replaceZ, List.cons_append, List.foldr_cons] at *
    rw [ih, List.append_assoc]

/-- C5: date normalization is total and two-branched — when the
(`Z`-replaced) string parses as an ISO-8601 timestamp the result is the
zero-padded `YYYY-MM-DD` rendering of a valid calendar date, and exactly
when parsing fails the result is the first 10 characters of the raw string;
a trailing `Z` is treated as the zero offset `+00:00`. -/
theorem iso_to_date_spec (s : Str) :
    (∀ y m d, parseIso (replaceZ s) = some (y, m, d) →
      iso_to_date s = fmtYMD y m d
      ∧ 1 ≤ y ∧ 1 ≤ m ∧ m ≤ 12 ∧ 1 ≤ d ∧ d ≤ daysInMonth y m)
    ∧ (parseIso (replaceZ s) = none → iso_to_date s = s.take 10)
    ∧ parseIso (replaceZ (s ++ [90])) = parseIso (replaceZ s ++ str "+00:00") := by
  refine ⟨?_, ?_, ?_⟩
  · intro y m d h
    refine ⟨?_, parseIso_valid h⟩
    unfold iso_to_date
    rw [h]
  · intro h
    unfold iso_to_date
    rw [h]
  · rw [replaceZ_append]
    have : replaceZ [90] = str "+00:00" := by decide
    rw [this]

/-- C5 witness: the §8 timestamp parses and truncates to its date; a
malformed string falls back to its first 10 characters. -/
theorem iso_to_date_spec_witness :
    iso_to_date (str "2023-01-15T10:30:00Z") = str "2023-01-15"
    ∧ iso_to_date (str "not-a-date-xyz") = str "not-a-date" := by
  constructor
  · have h := ((iso_to_date_spec (str "2023-01-15T10:30:00Z")).1 2023 1 15 (by decide)).1
    rw [h]; decide
  · have h := (iso_to_date_spec (str "not-a-date-xyz")).2.1 (by decide)
    rw [h]; decide

/-! ## Sort-key order lemmas (date-range query) -/

lemma lexLe_refl (l : Str) : lexLe l l = true := by
  induction l with
  | nil => rfl
  | cons a t ih => simp [lexLe, ih]

lemma lexLe_sep_lower :
    ∀ (a b : Str), a.length = b.length → ∀ (sep : Nat) (nm : Str),
      lexLe (a ++ [sep]) (b ++ sep :: nm) = lexLe a b := by
  intro a
  induction a with
  | nil =>
    intro b h sep nm
    cases b with
    | nil => simp [lexLe]
    | cons q bs => simp at h
  | cons p as ih =>
    intro b h sep nm
    cases b with
    | nil => simp at h
    | cons q bs =>
      have h' : as.length = bs.length := by simpa using h
      simp only [List.cons_append]
      by_cases h1 : p < q
      · simp [lexLe, h1]
      · by_cases h2 : q < p
        · simp [lexLe, h1, h2]
        · simp [lexLe, h1, h2, ih bs h' sep nm]

lemma lexLe_sep_upper :
    ∀ (a b : Str), a.length = b.length → ∀ (sep : Nat) (nm zs : Str),
      lexLe nm zs = true →
      lexLe (a ++ sep :: nm) (b ++ sep :: zs) = lexLe a b := by
  intro a
  induction a with
  | nil =>
    intro b h sep nm zs hz
    cases b with
    | nil => simp [lexLe, hz]
    | cons q bs => simp at h
  | cons p as ih =>
    intro b h sep nm zs hz
    cases b with
    | nil => simp at h
    | cons q bs =>
      have h' : as.length = bs.length := by simpa using h
      simp only [List.cons_append]
      by_cases h1 : p < q
      · simp [lexLe, h1]
      · by_cases h2 : q < p
        · simp [lexLe, h1, h2]
        · simp [lexLe, h1, h2, ih bs h' sep nm zs hz]

/-- C7 (amended): on a store whose `CATEGORY#<category>` partition holds
only items with well-formed sort keys `<date>#<id>` — ten-character date,
id lexicographically at most `zzzzzzz` (true of numeric arXiv ids) — the
date-range query returns exactly the items of that category whose embedded
date lies within `[start, end]` inclusive, and nothing from any other
category.  (Without the id bound the claim fails: see
`date_range_query_cex`.) -/
theorem date_range_query_spec (s : Store) (cat start_d end_d : Str)
    (hs : start_d.length = 10) (he : end_d.length = 10)
    (hitems : ∀ it ∈ s, it.PK = str "CATEGORY#" ++ cat →
      ∃ d nm, it.SK = d ++ 35 :: nm ∧ d.length = 10
        ∧ lexLe nm (str "zzzzzzz") = true) :
    (query_papers_in_date_range s cat start_d end_d).1
      = s.filter (fun it => it.PK == str "CATEGORY#" ++ cat
          && lexLe start_d (it.SK.take 10) && lexLe (it.SK.take 10) end_d)
    ∧ ∀ it ∈ (query_papers_in_date_range s cat start_d end_d).1,
        it.PK = str "CATEGORY#" ++ cat := by
  have hmain : (query_papers_in_date_range s cat start_d end_d).1
      = s.filter (fun it => it.PK == str "CATEGORY#" ++ cat
          && lexLe start_d (it.SK.take 10) && lexLe (it.SK.take 10) end_d) := by
    show s.filter _ = s.filter _
    apply List.filter_congr
    intro it hit
    by_cases hpk : it.PK = str "CATEGORY#" ++ cat
    · obtain ⟨d, nm, hsk, hd, hz⟩ := hitems it hit hpk
      have htake : (d ++ 35 :: nm).take 10 = d := by
        rw [← hd]; exact List.take_left d (35 :: nm)
      have h1 : lexLe (start_d ++ [35]) (d ++ 35 :: nm) = lexLe start_d d :=
        lexLe_sep_lower start_d d (by rw [hs, hd]) 35 nm
      have h2 : lexLe (d ++ 35 :: nm) (end_d ++ str "#zzzzzzz") = lexLe d end_d := by
        have hzz : str "#zzzzzzz" = 35 :: str "zzzzzzz" := by decide
        rw [hzz]
        exact lexLe_sep_upper d end_d (by rw [hd, he]) 35 nm _ hz
      rw [hsk, htake, h1, h2]
    · have hf : (it.PK == str "CATEGORY#" ++ cat) = false := by simp [hpk]
      rw [hf]
      simp
  refine ⟨hmain, ?_⟩
  intro it hit
  rw [hmain] at hit
  have hpred := List.of_mem_filter hit
  simp only [Bool.and_eq_true, beq_iff_eq] at hpred
  exact hpred.1.1

/-- C7 counterexample: a loaded record with id `zzzzzzzz` produces a
`CATEGORY#cs.LG` item with embedded date `2023-01-15`, inside the queried
range `[2023-01-10, 2023-01-15]`, yet the query returns zero items — the
`zzzzzzz` suffix does not cover every id on the end date. -/
theorem date_range_query_cex :
    ((loadRecords [] [zRec]).filter
        (fun it => it.PK == str "CATEGORY#cs.LG")).map Item.SK
      = [str "2023-01-15#zzzzzzzz"]
    ∧ lexLe (str "2023-01-10") (str "2023-01-15") = true
    ∧ lexLe (str "2023-01-15") (str "2023-01-15") = true
    ∧ (query_papers_in_date_range (loadRecords [] [zRec]) (str "cs.LG")
        (str "2023-01-10") (str "2023-01-15")).2 = 0 := by
  exact ⟨by decide, by decide, by decide, by decide⟩

/-- C7 witness: the amended statement instantiated on a singleton store
holding the §8 example's category item. -/
theorem date_range_query_spec_witness :
    (str "2023-01-10" : Str).length = 10
    ∧ (str "2023-01-31" : Str).length = 10
    ∧ (query_papers_in_date_range [catItem exCanon (str "cs.LG")] (str "cs.LG")
        (str "2023-01-10") (str "2023-01-31")).1
      = [catItem exCanon (str "cs.LG")].filter (fun it =>
          it.PK == str "CATEGORY#" ++ str "cs.LG"
          && lexLe (str "2023-01-10") (it.SK.take 10)
          && lexLe (it.SK.take 10) (str "2023-01-31")) := by
  refine ⟨by decide, by decide, ?_⟩
  refine (date_range_query_spec _ _ _ _ (by decide) (by decide) ?_).1
  intro it hit hpk
  rw [List.mem_singleton] at hit
  subst hit
  exact ⟨str "2023-01-15", str "2301.00001", by decide, by decide, by decide⟩

/-! ## Get-by-id lemmas -/

lemma projectItems_gsi2 {c : Canon} {it : Item} (hit : it ∈ projectItems c)
    {p : Str} (hg : it.GSI2PK = some p) :
    p = str "PAPER#" ++ c.arxiv_id ∧ it.PK = p ∧ it.SK = str "A" := by
  rcases List.mem_cons.mp hit with rfl | hit'
  · exact ⟨(Option.some.inj hg).symm, (Option.some.inj hg) ▸ rfl, rfl⟩
  rcases List.mem_append.mp hit' with h12 | h3
  · rcases List.mem_append.mp h12 with h1 | h2
    · rcases List.mem_map.mp h1 with ⟨x, _, rfl⟩; cases hg
    · rcases List.mem_map.mp h2 with ⟨x, _, rfl⟩; cases hg
  · rcases List.mem_map.mp h3 with ⟨x, _, rfl⟩; cases hg

lemma loadRecords_mem_aux {rs : List RawRecord} {e : Item} :
    ∀ {s : Store}, e ∈ loadRecords s rs →
      e ∈ s ∨ ∃ r ∈ rs, ∃ c, canonicalize r = some c ∧ e ∈ projectItems c := by
  induction rs with
  | nil => intro s h; exact Or.inl h
  | cons r t ih =>
    intro s h
    rcases ih (s := loadRecord s r) h with he | ⟨r', hr', c, hc, hproj⟩
    · unfold loadRecord at he
      split at he
      · exact Or.inl he
      · rename_i c hc
        rcases putItems_mem he with hes | hep
        · exact Or.inl hes
        · exact Or.inr ⟨r, by simp, c, hc, hep⟩
    · exact Or.inr ⟨r', by simp [hr'], c, hc, hproj⟩

lemma loadRecords_mem {rs : List RawRecord} {e : Item}
    (h : e ∈ loadRecords [] rs) :
    ∃ r ∈ rs, ∃ c, canonicalize r = some c ∧ e ∈ projectItems c := by
  rcases loadRecords_mem_aux h with he | hex
  · cases he
  · exact hex

lemma keysOf_nodup_putItem {s : Store} {it : Item}
    (h : (keysOf s).Nodup) : (keysOf (putItem s it)).Nodup := by
  by_cases hany : s.any (fun e => e.key == it.key) = true
  · rwa [keysOf_putItem_any hany]
  · rw [keysOf_putItem_fresh hany]
    have hfresh : it.key ∉ keysOf s := fun hmem => hany (any_key_of_mem_keysOf hmem)
    simp [List.nodup_append, h, hfresh]

lemma keysOf_nodup_putItems {L : List Item} {s : Store}
    (h : (keysOf s).Nodup) : (keysOf (putItems s L)).Nodup := by
  induction L generalizing s with
  | nil => exact h
  | cons i t ih => exact ih (keysOf_nodup_putItem h)

lemma keysOf_nodup_loadRecords {rs : List RawRecord} {s : Store}
    (h : (keysOf s).Nodup) : (keysOf (loadRecords s rs)).Nodup := by
  induction rs generalizing s with
  | nil => exact h
  | cons r t ih =>
    apply ih
    unfold loadRecord
    split
    · exact h
    · exact keysOf_nodup_putItems h

lemma filter_length_le_one {s : Store} {q : Item → Bool} {K : Str × Str}
    (hnd : (keysOf s).Nodup) (hkey : ∀ e ∈ s, q e = true → e.key = K) :
    (s.filter q).length ≤ 1 := by
  induction s with
  | nil => simp
  | cons i t ih =>
    have hcons : i.key ∉ keysOf t ∧ (keysOf t).Nodup := by
      have : keysOf (i :: t) = i.key :: keysOf t := rfl
      rw [this] at hnd
      exact List.nodup_cons.mp hnd
    by_cases hq : q i = true
    · have hkey_i : i.key = K := hkey i (by simp) hq
      have hempty : t.filter q = [] := by
        rw [List.filter_eq_nil_iff]
        intro e he hqe
        have heK : e.key = K := hkey e (by simp [he]) hqe
        exact hcons.1 (by rw [hkey_i, ← heK]; exact List.mem_map.mpr ⟨e, he, rfl⟩)
      rw [List.filter_cons_of_pos hq, hempty]
      simp
    · rw [List.filter_cons_of_neg (by simp [hq])]
      exact ih hcons.2 (fun e he hqe => hkey e (by simp [he]) hqe)

lemma dateIdSK_ne_A (c : Canon) : dateIdSK c ≠ str "A" := by
  unfold dateIdSK
  intro h
  have hlen := congrArg List.length h
  simp [str] at hlen
  obtain ⟨hd, hnm⟩ : dateStr c = [] ∧ c.arxiv_id = [] := by
    constructor
    · exact List.length_eq_zero.mp (by omega)
    · exact List.length_eq_zero.mp (by omega)
  rw [hd, hnm] at h
  exact absurd h (by decide)

lemma loadRecords_A_inv {rs : List RawRecord} {e : Item}
    (h : e ∈ loadRecords [] rs) (hA : e.SK = str "A") :
    e.GSI2PK = some e.PK := by
  obtain ⟨r, _, c, _, hproj⟩ := loadRecords_mem h
  rcases List.mem_cons.mp hproj with rfl | hit'
  · rfl
  have : e.SK = dateIdSK c := by
    rcases List.mem_append.mp hit' with h12 | h3
    · rcases List.mem_append.mp h12 with h1 | h2
      · rcases List.mem_map.mp h1 with ⟨x, _, rfl⟩; rfl
      · rcases List.mem_map.mp h2 with ⟨x, _, rfl⟩; rfl
    · rcases List.mem_map.mp h3 with ⟨x, _, rfl⟩; rfl
  exact absurd (this ▸ hA) (dateIdSK_ne_A c)

lemma keysOf_loadRecord_mono {s : Store} {r : RawRecord} {k : Str × Str}
    (h : k ∈ keysOf s) : k ∈ keysOf (loadRecord s r) := by
  unfold loadRecord
  split
  · exact h
  · exact mem_keysOf_putItems h

lemma keysOf_loadRecords_mono {rs : List RawRecord} {s : Store} {k : Str × Str}
    (h : k ∈ keysOf s) : k ∈ keysOf (loadRecords s rs) := by
  induction rs generalizing s with
  | nil => exact h
  | cons r t ih => exact ih (keysOf_loadRecord_mono h)

lemma paper_key_present {rs : List RawRecord} {r : RawRecord} {c : Canon}
    (hr : r ∈ rs) (hc : canonicalize r = some c) :
    (str "PAPER#" ++ c.arxiv_id, str "A") ∈ keysOf (loadRecords [] rs) := by
  obtain ⟨l1, l2, rfl⟩ := List.append_of_mem hr
  have hsplit : loadRecords [] (l1 ++ r :: l2)
      = loadRecords (loadRecord (loadRecords [] l1) r) l2 := by
    unfold loadRecords
    rw [List.foldl_append, List.foldl_cons]
  rw [hsplit]
  apply keysOf_loadRecords_mono
  unfold loadRecord
  rw [hc]
  exact keys_sub_putItems _ (paperItem c) (by simp [projectItems])

/-- C8: after any load from the empty store, at most one item inhabits the
`PaperIdIndex` partition of any id; `get-by-id` on an id no accepted record
carries returns the not-found envelope `([], 0)`, and on a loaded id it
returns exactly one item with count 1. -/
theorem get_by_id_spec (rs : List RawRecord) (arxiv_id : Str) :
    (gsi2Query (loadRecords [] rs) (str "PAPER#" ++ arxiv_id)).length ≤ 1
    ∧ ((¬ ∃ r ∈ rs, ∃ c, canonicalize r = some c ∧ c.arxiv_id = arxiv_id) →
        get_paper_by_id (loadRecords [] rs) arxiv_id = ([], 0))
    ∧ ((∃ r ∈ rs, ∃ c, canonicalize r = some c ∧ c.arxiv_id = arxiv_id) →
        ∃ it, get_paper_by_id (loadRecords [] rs) arxiv_id = ([it], 1)) := by
  refine ⟨?_, ?_, ?_⟩
  · apply filter_length_le_one (K := (str "PAPER#" ++ arxiv_id, str "A"))
      (keysOf_nodup_loadRecords (by simp [keysOf]))
    intro e he hqe
    have hg : e.GSI2PK = some (str "PAPER#" ++ arxiv_id) := by simpa using hqe
    obtain ⟨r, _, c, _, hproj⟩ := loadRecords_mem he
    obtain ⟨hp, hPK, hSK⟩ := projectItems_gsi2 hproj hg
    show (e.PK, e.SK) = (str "PAPER#" ++ arxiv_id, str "A")
    rw [hPK, hSK]
  · intro hnone
    have hempty : gsi2Query (loadRecords [] rs) (str "PAPER#" ++ arxiv_id) = [] := by
      rw [gsi2Query, List.filter_eq_nil_iff]
      intro e he hqe
      have hg : e.GSI2PK = some (str "PAPER#" ++ arxiv_id) := by simpa using hqe
      obtain ⟨r, hr, c, hc, hproj⟩ := loadRecords_mem he
      obtain ⟨hp, -, -⟩ := projectItems_gsi2 hproj hg
      have hid : c.arxiv_id = arxiv_id := List.append_cancel_left hp.symm
      exact hnone ⟨r, hr, c, hc, hid⟩
    unfold get_paper_by_id
    rw [hempty]
  · rintro ⟨r, hr, c, hc, rfl⟩
    have hkmem := paper_key_present hr hc
    obtain ⟨e, he, hkey⟩ := List.mem_map.mp hkmem
    have hSK : e.SK = str "A" := congrArg Prod.snd hkey
    have hPK : e.PK = str "PAPER#" ++ c.arxiv_id := congrArg Prod.fst hkey
    have hg : e.GSI2PK = some (str "PAPER#" ++ c.arxiv_id) :=
      hPK ▸ loadRecords_A_inv he hSK
    have hmem : e ∈ gsi2Query (loadRecords [] rs) (str "PAPER#" ++ c.arxiv_id) :=
      List.mem_filter.mpr ⟨he, by simp [hg]⟩
    cases hq : gsi2Query (loadRecords [] rs) (str "PAPER#" ++ c.arxiv_id) with
    | nil => rw [hq] at hmem; cases hmem
    | cons it rest =>
      refine ⟨it, ?_⟩
      unfold get_paper_by_id
      rw [hq]

/-- C8 witness: loading the §8 example, `get-by-id` finds `2301.00001`
exactly once and reports not-found for an unknown id. -/
theorem get_by_id_spec_witness :
    (get_paper_by_id (loadRecords [] [exRec]) (str "2301.00001")).2 = 1
    ∧ get_paper_by_id (loadRecords [] [exRec]) (str "9999.99999") = ([], 0) := by
  constructor
  · obtain ⟨it, hit⟩ := (get_by_id_spec [exRec] (str "2301.00001")).2.2
      ⟨exRec, List.mem_singleton.mpr rfl, exCanon, by decide, by decide⟩
    rw [hit]
  · apply (get_by_id_spec [exRec] (str "9999.99999")).2.1
    rintro ⟨r, hr, c, hc, hid⟩
    rw [List.mem_singleton] at hr
    subst hr
    rw [show canonicalize exRec = some exCanon from by decide] at hc
    have : c = exCanon := (Option.some.inj hc).symm
    subst this
    exact absurd hid (by decide)

/-! ## Keyword ranking (C3, C4, C10) -/

/-- C3: the keyword extractor returns surviving tokens only, pairwise
distinct, ordered by strictly descending frequency with ties broken by
first occurrence, truncated to at most 10; and any surviving token left
out loses the ranking to every returned token (the list being full). -/
theorem extract_keywords_spec (a : Str) :
    (extract_keywords a 10).length ≤ 10
    ∧ (∀ w ∈ extract_keywords a 10, w ∈ filteredTokens a)
    ∧ (extract_keywords a 10).Nodup
    ∧ (extract_keywords a 10).Pairwise (rankBefore a)
    ∧ (∀ w, w ∈ filteredTokens a → w ∉ extract_keywords a 10 →
        (extract_keywords a 10).length = 10
        ∧ ∀ v ∈ extract_keywords a 10, rankBefore a v w) := by
  have hperm := sortDesc_perm (counterItems (filteredTokens a))
  have hpw : (sortDesc (counterItems (filteredTokens a))).Pairwise
      (fun u v => rankBefore a u.1 v.1) := by
    refine List.Pairwise.imp_of_mem ?_
      (sortDesc_pairwise (counterItems_pairwise (filteredTokens a)))
    intro u v hu hv hr
    have hu' := mem_counterItems.mp (hperm.mem_iff.mp hu)
    have hv' := mem_counterItems.mp (hperm.mem_iff.mp hv)
    rcases hr with hlt | ⟨heq, hidx⟩
    · exact Or.inl (hu'.2 ▸ hv'.2 ▸ hlt)
    · exact Or.inr ⟨hu'.2 ▸ hv'.2 ▸ heq, hidx⟩
  have hout : extract_keywords a 10
      = ((sortDesc (counterItems (filteredTokens a))).take 10).map Prod.fst := rfl
  refine ⟨?_, ?_, ?_, ?_, ?_⟩
  · rw [hout, List.length_map, List.length_take]
    omega
  · intro w hw
    rw [hout] at hw
    rcases List.mem_map.mp hw with ⟨q, hq, rfl⟩
    have hq' : q ∈ counterItems (filteredTokens a) :=
      hperm.mem_iff.mp (List.take_subset 10 _ hq)
    exact (dedupAcc_mem.mp (mem_counterItems.mp hq').1).1
  · rw [hout, List.map_take]
    apply List.Sublist.nodup (List.take_sublist 10 _)
    have hfst : (sortDesc (counterItems (filteredTokens a))).map Prod.fst
        |>.Perm (dedupF (filteredTokens a)) := by
      rw [← counterItems_fst (filteredTokens a)]
      exact hperm.map Prod.fst
    exact hfst.nodup_iff.mpr dedupAcc_nodup
  · rw [hout, List.pairwise_map]
    exact hpw.sublist (List.take_sublist 10 _)
  · intro w hwf hwout
    have hqmem : (w, (filteredTokens a).count w)
        ∈ sortDesc (counterItems (filteredTokens a)) :=
      hperm.mem_iff.mpr (mem_counterItems.mpr
        ⟨dedupAcc_mem.mpr ⟨hwf, by simp⟩, rfl⟩)
    have hnotake : (w, (filteredTokens a).count w)
        ∉ (sortDesc (counterItems (filteredTokens a))).take 10 := by
      intro hmem
      exact hwout (hout ▸ List.mem_map.mpr ⟨_, hmem, rfl⟩)
    have hdrop : (w, (filteredTokens a).count w)
        ∈ (sortDesc (counterItems (filteredTokens a))).drop 10 := by
      rcases List.mem_append.mp
        ((List.take_append_drop 10 (sortDesc (counterItems (filteredTokens a)))) ▸ hqmem)
        with h' | h'
      · exact absurd h' hnotake
      · exact h'
    have hlen : 10 < (sortDesc (counterItems (filteredTokens a))).length := by
      by_contra hle
      push_neg at hle
      rw [List.drop_eq_nil_of_le hle] at hdrop
      cases hdrop
    constructor
    · rw [hout, List.length_map, List.length_take]
      omega
    · intro v hv
      rw [hout] at hv
      rcases List.mem_map.mp hv with ⟨q, hq, rfl⟩
      have hsplit := List.take_append_drop 10 (sortDesc (counterItems (filteredTokens a)))
      have hpw' := hpw
      rw [← hsplit] at hpw'
      exact List.pairwise_append.mp hpw' |>.2.2 q hq _ hdrop


/-- C3 witness: on an abstract with eleven distinct surviving tokens,
`kappa` (the lowest-ranked) survives the filters but is cut by the top-10
truncation, and the returned list is full. -/
theorem extract_keywords_spec_witness :
    (str "kappa" : Str) ∈ filteredTokens elevenAbs
    ∧ str "kappa" ∉ extract_keywords elevenAbs 10
    ∧ (extract_keywords elevenAbs 10).length = 10 := by
  refine ⟨by decide, by decide, ?_⟩
  exact ((extract_keywords_spec elevenAbs).2.2.2.2 (str "kappa")
    (by decide) (by decide)).1

/-- C4 counterexample: on the §8 abstract the extractor does NOT return
`[graph, traffic, networks, neural, prediction]` — `networks` first occurs
before `traffic`, so the stable tie-break at frequency 2 places it
earlier. -/
theorem example_keywords_cex :
    extract_keywords
        (str "graph neural networks traffic graph prediction traffic networks graph") 10
      ≠ [str "graph", str "traffic", str "networks", str "neural", str "prediction"] := by
  decide

/-- C4 (amended): on the §8 abstract, `graph` has frequency 3 (not 4) and
`traffic`/`networks` frequency 2 (not 3/2); the extractor ranks `graph`
first, then `networks` and `traffic` in first-occurrence order, then
`neural` and `prediction`, returning exactly
`[graph, networks, traffic, neural, prediction]`. -/
theorem example_keywords_amended :
    extract_keywords
        (str "graph neural networks traffic graph prediction traffic networks graph") 10
      = [str "graph", str "networks", str "traffic", str "neural", str "prediction"]
    ∧ (filteredTokens
        (str "graph neural networks traffic graph prediction traffic networks graph")).count
        (str "graph") = 3
    ∧ (filteredTokens
        (str "graph neural networks traffic graph prediction traffic networks graph")).count
        (str "traffic") = 2
    ∧ (filteredTokens
        (str "graph neural networks traffic graph prediction traffic networks graph")).count
        (str "networks") = 2
    ∧ (filteredTokens
        (str "graph neural networks traffic graph prediction traffic networks graph")).count
        (str "neural") = 1
    ∧ (filteredTokens
        (str "graph neural networks traffic graph prediction traffic networks graph")).count
        (str "prediction") = 1
    ∧ idxOf (str "networks")
        (filteredTokens
          (str "graph neural networks traffic graph prediction traffic networks graph"))
      < idxOf (str "traffic")
        (filteredTokens
          (str "graph neural networks traffic graph prediction traffic networks graph")) := by
  exact ⟨by decide, by decide, by decide, by decide, by decide, by decide, by decide⟩


/-! ## Token character classes and keyword keys (C10) -/

lemma lowerChar_mem_out {ch : Nat} (h : isTokN ch = true) :
    isLowerOut (lowerChar ch) = true := by
  have h' : (65 ≤ ch ∧ ch ≤ 90) ∨ (97 ≤ ch ∧ ch ≤ 122)
      ∨ (48 ≤ ch ∧ ch ≤ 57) ∨ ch = 45 := by
    simpa [isTokN, isAlphaN, isUpperN, or_assoc] using h
  unfold lowerChar
  by_cases hu : isUpperN ch = true
  · have hu' : 65 ≤ ch ∧ ch ≤ 90 := by simpa [isUpperN] using hu
    rw [if_pos hu]
    simp only [isLowerOut, decide_eq_true_eq]
    omega
  · have hu' : ¬(65 ≤ ch ∧ ch ≤ 90) := by simpa [isUpperN] using hu
    rw [if_neg hu]
    simp only [isLowerOut, decide_eq_true_eq]
    omega

lemma lowerChar_fix {ch : Nat} (h : isLowerOut ch = true) : lowerChar ch = ch := by
  have h' : (97 ≤ ch ∧ ch ≤ 122) ∨ (48 ≤ ch ∧ ch ≤ 57) ∨ ch = 45 := by
    simpa [isLowerOut] using h
  have hu : isUpperN ch ≠ true := by
    simp only [ne_eq, isUpperN, decide_eq_true_eq]
    omega
  simp [lowerChar, hu]

lemma tokenizeF_chars : ∀ (f : Nat) (s tok : Str), tok ∈ tokenizeF f s →
    tok ≠ [] ∧ ∀ ch ∈ tok, isLowerOut ch = true := by
  intro f
  induction f with
  | zero => intro s tok h; cases h
  | succ n ih =>
    intro s tok h
    cases s with
    | nil => cases h
    | cons c rest =>
      unfold tokenizeF at h
      by_cases hc : isAlphaN c = true
      · rw [if_pos hc] at h
        rcases List.mem_cons.mp h with rfl | h'
        · refine ⟨by simp, ?_⟩
          intro ch hch
          rcases List.mem_map.mp hch with ⟨d, hd, rfl⟩
          apply lowerChar_mem_out
          rcases List.mem_cons.mp hd with rfl | hd'
          · simp [isTokN, hc]
          · exact List.mem_takeWhile_imp hd'
        · exact ih _ _ h'
      · rw [if_neg hc] at h
        exact ih _ _ h

lemma tokenize_chars {s tok : Str} (h : tok ∈ tokenize s) :
    tok ≠ [] ∧ ∀ ch ∈ tok, isLowerOut ch = true :=
  tokenizeF_chars _ _ _ h

lemma extract_sub_filtered {a w : Str} (h : w ∈ extract_keywords a 10) :
    w ∈ filteredTokens a := by
  rcases List.mem_map.mp h with ⟨q, hq, rfl⟩
  have hq' : q ∈ counterItems (filteredTokens a) :=
    (sortDesc_perm _).mem_iff.mp (List.take_subset 10 _ hq)
  exact (dedupAcc_mem.mp (mem_counterItems.mp hq').1).1

lemma extract_nodup (a : Str) : (extract_keywords a 10).Nodup := by
  have hout : extract_keywords a 10
      = ((sortDesc (counterItems (filteredTokens a))).take 10).map Prod.fst := rfl
  rw [hout, List.map_take]
  apply List.Sublist.nodup (List.take_sublist 10 _)
  have hfst : ((sortDesc (counterItems (filteredTokens a))).map Prod.fst).Perm
      (dedupF (filteredTokens a)) := by
    rw [← counterItems_fst (filteredTokens a)]
    exact (sortDesc_perm _).map Prod.fst
  exact hfst.nodup_iff.mpr dedupAcc_nodup

lemma filtered_props {a w : Str} (h : w ∈ filteredTokens a) :
    w ∈ tokenize a ∧ w ∉ STOPWORDS ∧ 3 ≤ w.length := by
  obtain ⟨ht, hf⟩ := List.mem_filter.mp h
  simp only [Bool.and_eq_true, Bool.not_eq_true', decide_eq_true_eq] at hf
  refine ⟨ht, ?_, hf.2⟩
  intro hmem
  have hcont : STOPWORDS.contains w = true := by simpa using hmem
  rw [hf.1] at hcont
  cases hcont

/-- C10: the extracted keyword list of any abstract holds pairwise distinct
tokens, each nonempty, of length at least 3, outside the stopword set, made
only of lowercase letters, digits and hyphens, and fixed under case folding
— so the projected `KEYWORD#` partition keys are pairwise distinct and the
case-folded lookup key of the query engine matches the stored key
exactly. -/
theorem keyword_items_distinct_lowercase (a : Str) :
    (extract_keywords a 10).Nodup
    ∧ (∀ w ∈ extract_keywords a 10,
        w ≠ [] ∧ 3 ≤ w.length ∧ w ∉ STOPWORDS
        ∧ (∀ ch ∈ w, isLowerOut ch = true) ∧ lowerStr w = w
        ∧ kwQueryKey w = str "KEYWORD#" ++ w)
    ∧ ((extract_keywords a 10).map (fun w => str "KEYWORD#" ++ w)).Nodup := by
  have hnd := extract_nodup a
  refine ⟨hnd, ?_, ?_⟩
  · intro w hw
    have hwf := extract_sub_filtered hw
    obtain ⟨htok, hstop, hlen⟩ := filtered_props hwf
    obtain ⟨hne, hchars⟩ := tokenize_chars htok
    have hfix : lowerStr w = w := by
      unfold lowerStr
      have hpt : ∀ ch ∈ w, lowerChar ch = ch :=
        fun ch hch => lowerChar_fix (hchars ch hch)
      rw [List.map_congr_left hpt]
      exact List.map_id' w
    exact ⟨hne, hlen, hstop, hchars, hfix, by unfold kwQueryKey; rw [hfix]⟩
  · apply List.Nodup.map_on ?_ hnd
    intro x _ y _ hxy
    exact List.append_cancel_left hxy

/-- C10 witness: instantiated on the §8 abstract at the keyword `graph`. -/
theorem keyword_items_witness :
    (str "graph" : Str) ∈ extract_keywords exCanon.abstract 10
    ∧ lowerStr (str "graph") = str "graph"
    ∧ kwQueryKey (str "graph") = str "KEYWORD#" ++ str "graph" := by
  have h := (keyword_items_distinct_lowercase exCanon.abstract).2.1
    (str "graph") (by decide)
  exact ⟨by decide, h.2.2.2.2.1, h.2.2.2.2.2⟩

end ArxivIndex
